import Mathlib

/-!
# Verification of the JBA player-verification core

Shallow embedding of the matching core of
`player_verification_system_v2.py` (class `JBAVerificationSystem`):

* `normalize_date_format` — the date normalizer (source lines 272-297);
* `similarity` — `difflib.SequenceMatcher(None, a, b).ratio()` as used by
  the matcher (source line 317);
* `search_teams_by_university` / `get_team_members` — the roster-fetch
  collaborators, with their HTTP/HTML side modelled by an environment
  oracle (`Env`) that says, for each call, whether the network
  interaction succeeded and with which parsed data (source lines 122-270);
* `verify_player_info` — the matching operation (source lines 299-340).

Modelling conventions:

* Python strings are `List Char`.
* Python floats are exact rationals (`ℚ`); the ratio `2*M/T` and the
  `0.8` threshold compare identically under IEEE doubles and exact
  rationals for all realistic string lengths, since `|p/q - 4/5| ≥ 1/(5q)`
  whenever `p/q ≠ 4/5`.
* The digits matched by the source's regexes and `int()` calls are
  modelled as the ASCII digits; the other shapes Python `int()` accepts
  (signs, surrounding whitespace, underscores) are modelled as a parse
  failure, which the source's `except` handler turns into the same
  passthrough of the original string.
* Side effects that only display UI messages (`st.error`, `st.info`,
  `st.success`) are not modelled; only returned values are.
-/

/-! ## Decimal digits, Python `int()` and `str()` of an int -/

/-- Numeric value of an ASCII digit character. -/
def digitVal (c : Char) : Nat := c.toNat - 48

/-- Value of a big-endian string of ASCII digits, as computed by Python
`int()` on an all-digit string. -/
def digitsToNat (s : List Char) : Nat :=
  s.foldl (fun a c => 10 * a + digitVal c) 0

/-- Fuel-driven big-endian decimal rendering of a natural number; fuel
`n+1` always suffices because the argument shrinks by a factor of 10. -/
def natDigitsAux : Nat → Nat → List Char
  | 0, _ => []
  | fuel + 1, n =>
    if n < 10 then [Char.ofNat (48 + n)]
    else natDigitsAux fuel (n / 10) ++ [Char.ofNat (48 + n % 10)]

/-- Decimal rendering of a natural number, as produced by Python
`str(int(x))` and by the f-string interpolation `f"{int(month)}"` in
`normalize_date_format`: no sign, no leading zeros, `"0"` for zero. -/
def natDigits (n : Nat) : List Char := natDigitsAux (n + 1) n

/-- Models Python `int(component)` on the split date components: succeeds
on a nonempty string of ASCII digits (so `"05"` parses to `5`, stripping
the leading zero); any other string is modelled as raising `ValueError`,
i.e. `none`, which the source's bare `except` turns into returning the
original input unchanged. -/
def pyInt (s : List Char) : Option Nat :=
  if s ≠ [] ∧ s.all Char.isDigit then some (digitsToNat s) else none

/-! ## Python `str.split("/")` -/

/-- Models Python `date_str.split("/")`: splits on every `'/'`, keeping
empty components, and returns `[s]` when no separator occurs. -/
def splitSlash : List Char → List (List Char)
  | [] => [[]]
  | c :: rest =>
    match splitSlash rest with
    | [] => [[]]
    | p :: ps => if c = '/' then [] :: p :: ps else (c :: p) :: ps

/-- Inverse of `splitSlash`: interleave the parts with `'/'`. -/
def joinSlash : List (List Char) → List Char
  | [] => []
  | [p] => p
  | p :: ps => p ++ '/' :: joinSlash ps

/-! ## The CJK date regex

Models `re.match(r'(\d{4})年(\d{1,2})月(\d{1,2})日', date_str)`:
an anchored prefix match of four digits, `年`, one or two digits
(greedy, with backtracking), `月`, one or two digits, `日`, followed by
anything. -/

/-- Consume exactly `n` ASCII digits from the front. -/
def takeDigits : Nat → List Char → Option (List Char × List Char)
  | 0, s => some ([], s)
  | _ + 1, [] => none
  | n + 1, c :: s =>
    if c.isDigit then
      match takeDigits n s with
      | some (ds, rest) => some (c :: ds, rest)
      | none => none
    else none

/-- Consume `\d{1,2}` followed by the literal `marker`, with the greedy
backtracking of the regex engine: two digits before the marker are
preferred, then one. -/
def takeOneTwoDigitsThen (marker : Char) : List Char → Option (List Char × List Char)
  | c1 :: c2 :: c3 :: rest =>
    if c1.isDigit ∧ c2.isDigit ∧ c3 = marker then some ([c1, c2], rest)
    else if c1.isDigit ∧ c2 = marker then some ([c1], c3 :: rest)
    else none
  | [c1, c2] => if c1.isDigit ∧ c2 = marker then some ([c1], []) else none
  | _ => none

/-- Consume one literal character. -/
def expectChar (c : Char) : List Char → Option (List Char)
  | [] => none
  | x :: rest => if x = c then some rest else none

/-- The anchored CJK date match: on success returns the year digit
string verbatim and the month and day already passed through `int()`
(the source immediately converts the two captures with `int`); the
remainder after `日` is discarded, exactly as `re.match` ignores
trailing characters. -/
def matchCJKDate (s : List Char) : Option (List Char × Nat × Nat) :=
  (takeDigits 4 s).bind fun yr =>
    (expectChar '年' yr.2).bind fun s2 =>
      (takeOneTwoDigitsThen '月' s2).bind fun mr =>
        (takeOneTwoDigitsThen '日' mr.2).map fun dr =>
          (yr.1, digitsToNat mr.1, digitsToNat dr.1)

/-! ## `normalize_date_format` (source lines 272-297) -/

/-- Second half of `normalize_date_format`: the already-slash-separated
branch.  Python guards with `"/" in date_str and len(date_str.split("/")) == 3`,
which holds exactly when the split has three parts; then
`f"{parts[0]}/{int(parts[1])}/{int(parts[2])}"` is returned, the year
part copied verbatim and only month and day passed through `int()`.  A
`ValueError` from either `int()` is caught by the enclosing bare
`except`, which returns the input unchanged. -/
def slashOrKeep (s : List Char) : List Char :=
  match splitSlash s with
  | [y, mo, da] =>
    match pyInt mo, pyInt da with
    | some m, some d => y ++ '/' :: natDigits m ++ '/' :: natDigits d
    | _, _ => s
  | _ => s

/-- Models `JBAVerificationSystem.normalize_date_format`.  Empty input
returns the empty string; if all of `年`, `月`, `日` occur and the
anchored CJK regex matches, the canonical `"YYYY/M/D"` string is built
from the match; otherwise the slash-separated branch runs; anything
unrecognized is returned unchanged. -/
def normalize_date_format (s : List Char) : List Char :=
  if s = [] then []
  else if '年' ∈ s ∧ '月' ∈ s ∧ '日' ∈ s then
    match matchCJKDate s with
    | some (y, m, d) => y ++ '/' :: natDigits m ++ '/' :: natDigits d
    | none => slashOrKeep s
  else slashOrKeep s

/-- Recognition predicate for the CJK branch actually rewriting its
input: all three markers occur and the anchored regex matches. -/
def recognizedCJK (s : List Char) : Bool :=
  s.contains '年' && s.contains '月' && s.contains '日' && (matchCJKDate s).isSome

/-- Recognition predicate for the slash branch actually rewriting its
input: exactly three components and both `int()` calls succeed. -/
def recognizedSlash (s : List Char) : Bool :=
  match splitSlash s with
  | [_, mo, da] => (pyInt mo).isSome && (pyInt da).isSome
  | _ => false

/-! ## `difflib.SequenceMatcher(None, a, b).ratio()`

The matcher's name similarity (source line 317).  With `isjunk = None`
the junk set `bjunk` is empty, so the two junk-extension while loops of
`find_longest_match` never fire and `isbjunk` is constantly false in the
other two; the `autojunk` heuristic still drops "popular" elements from
`b2j` when `len(b) >= 200`. -/

/-- All positions of `c` in `b`, ascending — one entry of the `b2j`
index built by `__chain_b`. -/
def posList (b : List Char) (c : Char) : List Nat :=
  (b.enum.filter (fun p => p.2 == c)).map Prod.fst

/-- The `autojunk` popularity test of `__chain_b`: an element is popular
when `len(b) >= 200` and it occurs more than `len(b) // 100 + 1` times. -/
def isPopular (b : List Char) (c : Char) : Bool :=
  decide (200 ≤ b.length) && decide (b.length / 100 + 1 < (posList b c).length)

/-- `b2j.get(a[i], [])`: positions of the element in `b`, with popular
elements removed by `autojunk`. -/
def b2jGet (b : List Char) (c : Char) : List Nat :=
  if isPopular b c then [] else posList b c

/-- The running best match of `find_longest_match`:
`(besti, bestj, bestsize)`. -/
structure MatchState where
  besti : Nat
  bestj : Nat
  bestsize : Nat
deriving DecidableEq

/-- Inner loop of `find_longest_match` over `b2j.get(a[i], [])`: `j`s
below `blo` are skipped, the ascending list is cut off at the first
`j >= bhi` (the `break`), and otherwise
`k = newj2len[j] = j2len.get(j-1, 0) + 1` with the strict best-size
update `(besti, bestj, bestsize) = (i-k+1, j-k+1, k)`.  The dictionaries
are association lists read through `List.lookup`; the lookup key `j-1`
of Python is `-1` when `j = 0`, which is never present, hence the
explicit zero case. -/
def innerLoop (i blo bhi : Nat) (j2len : List (Nat × Nat)) :
    List Nat → List (Nat × Nat) → MatchState → List (Nat × Nat) × MatchState
  | [], newj2len, st => (newj2len, st)
  | j :: js, newj2len, st =>
    if j < blo then innerLoop i blo bhi j2len js newj2len st
    else if bhi ≤ j then (newj2len, st)
    else
      let k := (if j = 0 then 0 else (List.lookup (j - 1) j2len).getD 0) + 1
      let st' : MatchState := if st.bestsize < k then ⟨i + 1 - k, j + 1 - k, k⟩ else st
      innerLoop i blo bhi j2len js ((j, k) :: newj2len) st'

/-- Outer loop of `find_longest_match` over `i in range(alo, ahi)`:
each iteration consumes the previous `j2len` and starts a fresh
`newj2len`. -/
def outerLoop (a b : List Char) (blo bhi : Nat) :
    List Nat → List (Nat × Nat) → MatchState → MatchState
  | [], _, st => st
  | i :: is, j2len, st =>
    let p := innerLoop i blo bhi j2len (b2jGet b ((a.get? i).getD ' ')) [] st
    outerLoop a b blo bhi is p.1 p.2

/-- In-range character equality `a[i] == b[j]`. -/
def charEq (a b : List Char) (i j : Nat) : Bool :=
  match a.get? i, b.get? j with
  | some x, some y => x == y
  | _, _ => false

/-- The first while loop of `find_longest_match`: extend the best match
leftward while the adjacent characters agree (with `isbjunk` constantly
false).  `besti` strictly decreases each iteration, so fuel `besti`
makes the recursion exhaust the loop exactly. -/
def extendBack (a b : List Char) (alo blo : Nat) : Nat → MatchState → MatchState
  | 0, st => st
  | fuel + 1, st =>
    if alo < st.besti ∧ blo < st.bestj ∧ charEq a b (st.besti - 1) (st.bestj - 1) then
      extendBack a b alo blo fuel ⟨st.besti - 1, st.bestj - 1, st.bestsize + 1⟩
    else st

/-- The second while loop of `find_longest_match`: extend rightward
while the characters after the block agree.  `besti + bestsize` strictly
increases toward `ahi`, so fuel `ahi` suffices. -/
def extendFwd (a b : List Char) (ahi bhi : Nat) : Nat → MatchState → MatchState
  | 0, st => st
  | fuel + 1, st =>
    if st.besti + st.bestsize < ahi ∧ st.bestj + st.bestsize < bhi ∧
        charEq a b (st.besti + st.bestsize) (st.bestj + st.bestsize) then
      extendFwd a b ahi bhi fuel ⟨st.besti, st.bestj, st.bestsize + 1⟩
    else st

/-- `SequenceMatcher.find_longest_match(alo, ahi, blo, bhi)` with
`isjunk = None`: the dynamic-programming scan followed by the two
non-junk extension loops (the junk-extension loops never fire since
`bjunk` is empty). -/
def find_longest_match (a b : List Char) (alo ahi blo bhi : Nat) : MatchState :=
  let st1 := outerLoop a b blo bhi (List.range' alo (ahi - alo)) [] ⟨alo, blo, 0⟩
  let st2 := extendBack a b alo blo st1.besti st1
  extendFwd a b ahi bhi ahi st2

/-- Total size of all matching blocks found by `get_matching_blocks`,
written as the recursion that the queue in the source performs: find the
longest match, then recurse left and right of it.  Sorting and the
merging of adjacent blocks in the source do not change the total size,
which is all `ratio()` reads.  The interval span
`(ahi - alo) + (bhi - blo)` strictly decreases at each recursive call
(see `matchingTotal_fuel_stable`), so the fuel budget `la + lb` used by
`similarity` reproduces the unbounded recursion exactly. -/
def matchingTotal (a b : List Char) : Nat → Nat → Nat → Nat → Nat → Nat
  | 0, _, _, _, _ => 0
  | fuel + 1, alo, ahi, blo, bhi =>
    let st := find_longest_match a b alo ahi blo bhi
    if st.bestsize = 0 then 0
    else
      (if alo < st.besti ∧ blo < st.bestj then
        matchingTotal a b fuel alo st.besti blo st.bestj else 0)
      + st.bestsize
      + (if st.besti + st.bestsize < ahi ∧ st.bestj + st.bestsize < bhi then
          matchingTotal a b fuel (st.besti + st.bestsize) ahi (st.bestj + st.bestsize) bhi else 0)

/-- `SequenceMatcher(None, a, b).ratio()`: `2*M/T` where `M` is the
total matched size and `T` the combined length; `1.0` when both strings
are empty (`_calculate_ratio`). -/
def similarity (a b : List Char) : ℚ :=
  let m := matchingTotal a b (a.length + b.length) 0 a.length 0 b.length
  if a.length + b.length = 0 then 1
  else mkRat (2 * (m : Int)) (a.length + b.length)

/-! ## Data model of the matcher -/

/-- One roster row as scraped by `get_team_members`. -/
structure Member where
  member_id : List Char
  name : List Char
  birth_date : List Char
deriving DecidableEq

/-- One search hit as built by `search_teams_by_university`. -/
structure Team where
  id : List Char
  name : List Char
  url : List Char
deriving DecidableEq

/-- One raw record of the JSON search response, before the male-team
filter. -/
structure TeamRecord where
  id : List Char
  team_name : List Char
  team_gender_id : List Char
deriving DecidableEq

/-- Result of `get_team_members`. -/
structure TeamData where
  team_name : List Char
  members : List Member
deriving DecidableEq

/-- Outcome of one network interaction of a collaborator. -/
inductive FetchOutcome (α : Type) where
  | ok : α → FetchOutcome α
  | failed : FetchOutcome α
deriving DecidableEq

/-- Oracle for the HTTP/HTML side of the collaborators: whether the
session is logged in, what the team search returns for a given
affiliation (`.failed` collapses every failure path of
`search_teams_by_university`: non-200 search page, non-200 search
response, JSON parse error, a response without `status == 'success'`
and `records`, or any other exception), and what scraping a given team
URL yields (`.failed` collapses the non-200 page and the exception
handler of `get_team_members`). -/
structure Env where
  logged_in : Bool
  search : List Char → FetchOutcome (List TeamRecord)
  roster : List Char → FetchOutcome TeamData

/-- The literal `'男子'` compared against `team_data.get('team_gender_id')`. -/
def maleTeamChars : List Char := "男子".toList

/-- URL built for each search hit. -/
def teamDetailUrl (id : List Char) : List Char :=
  "https://team-jba.jp/organization/15250600/team/".toList ++ id ++ "/detail".toList

/-- Models `search_teams_by_university` (source lines 122-203): not
being logged in returns `[]`; every failure of the search interaction
returns `[]`; a successful JSON response is filtered to male teams and
mapped to `Team` values. -/
def search_teams_by_university (env : Env) (university_name : List Char) : List Team :=
  if env.logged_in = false then []
  else
    match env.search university_name with
    | .failed => []
    | .ok records =>
      (records.filter (fun r => r.team_gender_id == maleTeamChars)).map
        (fun r => { id := r.id, name := r.team_name, url := teamDetailUrl r.id })

/-- The `{"team_name": "Error", "members": []}` dictionaries returned on
a non-200 team page and by the exception handler of `get_team_members`
(the handler also records the URL, which no caller reads). -/
def errorTeamData : TeamData := { team_name := "Error".toList, members := [] }

/-- Models `get_team_members` (source lines 205-270): a successful
scrape yields the parsed member table; a non-200 status or an exception
yields the `"Error"` team with an empty member list. -/
def get_team_members (env : Env) (team_url : List Char) : TeamData :=
  match env.roster team_url with
  | .ok td => td
  | .failed => errorTeamData

/-- Members of all found teams in scan order (teams in search order,
members in roster order). -/
def rosterFlat (env : Env) (teams : List Team) : List Member :=
  (teams.map (fun t => (get_team_members env t.url).members)).flatten

/-- The discriminated result dictionaries of `verify_player_info`,
keyed by their `status` field: `"match"`, `"name_match_birth_mismatch"`,
`"not_found"`, `"error"`. -/
inductive VerifyResult where
  | matched (jba_data : Member) (sim : ℚ)
  | name_match_birth_mismatch (jba_data : Member) (sim : ℚ) (message : List Char)
  | not_found (message : List Char)
  | error (message : List Char)
deriving DecidableEq

/-- Message `f"{university}の男子チームが見つかりませんでした"`. -/
def teamsNotFoundMsg (university : List Char) : List Char :=
  university ++ "の男子チームが見つかりませんでした".toList

/-- Message of the final not-found result. -/
def playerNotFoundMsg : List Char :=
  "JBAデータベースに該当する選手が見つかりませんでした".toList

/-- Message `f"名前は一致しますが、生年月日が異なります。JBA登録:{member['birth_date']}"` —
it embeds the roster's original, non-normalized birth-date string. -/
def mismatchMsgOf (birth_date : List Char) : List Char :=
  "名前は一致しますが、生年月日が異なります。JBA登録:".toList ++ birth_date

/-- Discriminator for the failure-style result (`status == "error"`),
the only result distinct from the three classification outcomes. -/
def isLookupFailure : VerifyResult → Bool
  | .error _ => true
  | _ => false

/-- The similarity threshold literal `0.8` of the source, written as the
exact rational `4/5` (`mkRat` keeps the constant kernel-computable). -/
def simThreshold : ℚ := mkRat 4 5

/-- The inner member loop of `verify_player_info` (source lines
315-335): first entry with similarity above `0.8` decides; equal
normalized dates give `"match"`, otherwise
`"name_match_birth_mismatch"`; `none` means the loop fell through. -/
def scanMembers (player_name nid : List Char) : List Member → Option VerifyResult
  | [] => none
  | member :: rest =>
    let name_similarity := similarity player_name member.name
    let jba_date := normalize_date_format member.birth_date
    if name_similarity > simThreshold ∧ nid = jba_date then
      some (.matched member name_similarity)
    else if name_similarity > simThreshold then
      some (.name_match_birth_mismatch member name_similarity (mismatchMsgOf member.birth_date))
    else scanMembers player_name nid rest

/-- The team loop of `verify_player_info` (source lines 312-337): fetch
each roster in order, scan its members (an empty member list is
skipped), and fall through to the final not-found result. -/
def scanTeams (env : Env) (player_name nid : List Char) : List Team → VerifyResult
  | [] => .not_found playerNotFoundMsg
  | team :: rest =>
    match scanMembers player_name nid (get_team_members env team.url).members with
    | some r => r
    | none => scanTeams env player_name nid rest

/-- Models `verify_player_info` (source lines 299-340).  The enclosing
`try/except` of the source can only fire on failures inside the body;
every modelled operation handles its own failures internally, so the
`"error"` status does not arise from any collaborator outcome. -/
def verify_player_info (env : Env) (player_name birth_date university : List Char) :
    VerifyResult :=
  let teams := search_teams_by_university env university
  if teams = [] then .not_found (teamsNotFoundMsg university)
  else scanTeams env player_name (normalize_date_format birth_date) teams

/-! ## Fixture environments and loop invariants used by the proofs -/

/-- Invariant of the running best match of `find_longest_match`: it
stays inside the window, and before any match is found it still sits at
the window origin. -/
def MatchInv (alo ahi blo bhi : Nat) (st : MatchState) : Prop :=
  alo ≤ st.besti ∧ blo ≤ st.bestj ∧
    (st.bestsize = 0 → st.besti = alo ∧ st.bestj = blo) ∧
    (0 < st.bestsize → st.besti + st.bestsize ≤ ahi ∧ st.bestj + st.bestsize ≤ bhi)
/-- Invariant of the `j2len` dictionaries at the start of iteration
`i`: every stored run length fits inside the window processed so far. -/
def DictBound (alo blo i : Nat) (d : List (Nat × Nat)) : Prop :=
  ∀ j v, List.lookup j d = some v → v + alo ≤ i ∧ blo ≤ j ∧ v + blo ≤ j + 1
/-- Environment used by the C1 counterexample and the amended-C1
witness: the team search fails on every affiliation. -/
def envC1 : Env :=
  ⟨true, fun _ => FetchOutcome.failed, fun _ => FetchOutcome.failed⟩
/-- Environment used by the C2 witness: one male team whose roster has
two entries both named like the applicant, with different birth dates. -/
def envC2 : Env :=
  ⟨true, fun _ => FetchOutcome.ok [⟨"1".toList, "Tokyo".toList, "男子".toList⟩],
    fun _ => FetchOutcome.ok ⟨"Tokyo".toList,
      [⟨"10".toList, "Tanaka Taro".toList, "2004/5/31".toList⟩,
       ⟨"11".toList, "Tanaka Taro".toList, "2000/1/1".toList⟩]⟩⟩
/-- Environment used by the C6 witness: the search succeeds but returns
zero records. -/
def envC6 : Env :=
  ⟨true, fun _ => FetchOutcome.ok [], fun _ => FetchOutcome.failed⟩
/-- Environment used by the C7 witness: one male team with one member
whose name equals the applicant's but whose birth date differs. -/
def envC7 : Env :=
  ⟨true, fun _ => FetchOutcome.ok [⟨"7".toList, "T".toList, "男子".toList⟩],
    fun _ => FetchOutcome.ok ⟨"T".toList,
      [⟨"10".toList, "Tanaka".toList, "2000/1/1".toList⟩]⟩⟩
/-- Environment used by the C10 witness: fetching any roster fails. -/
def envC10 : Env :=
  ⟨true, fun _ => FetchOutcome.ok [], fun _ => FetchOutcome.failed⟩

/-! ## Lemmas about digits, decimal rendering and `splitSlash` -/

lemma char_ofNat_digit_toNat {d : Nat} (hd : d < 10) :
    (Char.ofNat (48 + d)).toNat = 48 + d := by
  interval_cases d <;> decide

lemma char_ofNat_digit_isDigit {d : Nat} (hd : d < 10) :
    (Char.ofNat (48 + d)).isDigit = true := by
  interval_cases d <;> decide

lemma digitsToNat_append_singleton (xs : List Char) (c : Char) :
    digitsToNat (xs ++ [c]) = 10 * digitsToNat xs + digitVal c := by
  simp [digitsToNat, List.foldl_append]

lemma natDigitsAux_spec : ∀ fuel n, n < fuel →
    digitsToNat (natDigitsAux fuel n) = n ∧
      (∀ c ∈ natDigitsAux fuel n, c.isDigit = true) ∧ natDigitsAux fuel n ≠ [] := by
  intro fuel
  induction fuel with
  | zero => intro n hn; omega
  | succ fuel ih =>
    intro n hn
    by_cases h : n < 10
    · refine ⟨?_, ?_, ?_⟩ <;> simp [natDigitsAux, h, digitsToNat, digitVal]
      · rw [char_ofNat_digit_toNat h]; omega
      · exact char_ofNat_digit_isDigit h
    · have hdiv : n / 10 < fuel := by
        have h1 : n / 10 < n := Nat.div_lt_self (by omega) (by omega)
        omega
      obtain ⟨ihv, ihd, ihne⟩ := ih (n / 10) hdiv
      have hmod : n % 10 < 10 := Nat.mod_lt _ (by omega)
      refine ⟨?_, ?_, ?_⟩
      · rw [natDigitsAux, if_neg h, digitsToNat_append_singleton, ihv, digitVal,
          char_ofNat_digit_toNat hmod]
        omega
      · intro c hc
        rw [natDigitsAux, if_neg h] at hc
        rcases List.mem_append.1 hc with hc | hc
        · exact ihd c hc
        · rcases List.mem_singleton.1 hc with rfl
          exact char_ofNat_digit_isDigit hmod
      · rw [natDigitsAux, if_neg h]
        simp

lemma digitsToNat_natDigits (n : Nat) : digitsToNat (natDigits n) = n :=
  (natDigitsAux_spec (n + 1) n (by omega)).1

lemma natDigits_all_digit (n : Nat) : ∀ c ∈ natDigits n, c.isDigit = true :=
  (natDigitsAux_spec (n + 1) n (by omega)).2.1

lemma natDigits_ne_nil (n : Nat) : natDigits n ≠ [] :=
  (natDigitsAux_spec (n + 1) n (by omega)).2.2

lemma isDigit_ne {c : Char} (h : c.isDigit = true) :
    c ≠ '/' ∧ c ≠ '年' ∧ c ≠ '月' ∧ c ≠ '日' := by
  refine ⟨?_, ?_, ?_, ?_⟩ <;> rintro rfl <;> exact absurd h (by decide)

lemma slash_not_mem_natDigits (n : Nat) : '/' ∉ natDigits n := by
  intro h
  exact (isDigit_ne (natDigits_all_digit n _ h)).1 rfl

lemma pyInt_natDigits (n : Nat) : pyInt (natDigits n) = some n := by
  rw [pyInt, if_pos, digitsToNat_natDigits]
  refine ⟨natDigits_ne_nil n, ?_⟩
  rw [List.all_eq_true]
  intro c hc
  exact natDigits_all_digit n c hc

lemma pyInt_some {s : List Char} {n : Nat} (h : pyInt s = some n) :
    s ≠ [] ∧ (∀ c ∈ s, c.isDigit = true) ∧ digitsToNat s = n := by
  rw [pyInt] at h
  split at h
  · rename_i hcond
    refine ⟨hcond.1, ?_, by injection h⟩
    intro c hc
    exact List.all_eq_true.1 hcond.2 c hc
  · cases h

lemma splitSlash_ne_nil (s : List Char) : splitSlash s ≠ [] := by
  induction s with
  | nil => simp [splitSlash]
  | cons c rest ih =>
    rw [splitSlash]
    rcases h : splitSlash rest with _ | ⟨p, ps⟩
    · simp
    · by_cases hc : c = '/' <;> simp [hc]

lemma splitSlash_no_sep {s : List Char} (h : '/' ∉ s) : splitSlash s = [s] := by
  induction s with
  | nil => rfl
  | cons c rest ih =>
    have hc : c ≠ '/' := fun e => h (by simp [e])
    have hr : '/' ∉ rest := fun e => h (by simp [e])
    rw [splitSlash, ih hr]
    simp [hc]

lemma splitSlash_sep_cons (t : List Char) : splitSlash ('/' :: t) = [] :: splitSlash t := by
  rw [splitSlash]
  rcases h : splitSlash t with _ | ⟨p, ps⟩
  · exact absurd h (splitSlash_ne_nil t)
  · simp

lemma splitSlash_append {a : List Char} (h : '/' ∉ a) (t : List Char) :
    splitSlash (a ++ '/' :: t) = a :: splitSlash t := by
  induction a with
  | nil => simpa using splitSlash_sep_cons t
  | cons c a ih =>
    have hc : c ≠ '/' := fun e => h (by simp [e])
    have ha : '/' ∉ a := fun e => h (by simp [e])
    rw [List.cons_append, splitSlash, ih ha]
    simp [hc]

lemma joinSlash_splitSlash (s : List Char) : joinSlash (splitSlash s) = s := by
  induction s with
  | nil => rfl
  | cons c rest ih =>
    rw [splitSlash]
    rcases h : splitSlash rest with _ | ⟨p, ps⟩
    · exact absurd h (splitSlash_ne_nil rest)
    · rw [h] at ih
      by_cases hc : c = '/'
      · subst hc
        simpa [joinSlash] using ih
      · simp only [if_neg hc]
        rcases ps with _ | ⟨q, qs⟩
        · simpa [joinSlash] using ih
        · simp only [joinSlash, List.cons_append] at ih ⊢
          rw [← ih]

lemma splitSlash_parts_no_sep : ∀ (s : List Char), ∀ p ∈ splitSlash s, '/' ∉ p := by
  intro s
  induction s with
  | nil => intro p hp; simp [splitSlash] at hp; simp [hp]
  | cons c rest ih =>
    intro p hp
    rw [splitSlash] at hp
    rcases h : splitSlash rest with _ | ⟨q, qs⟩
    · exact absurd h (splitSlash_ne_nil rest)
    · rw [h] at hp
      by_cases hc : c = '/'
      · simp only [if_pos hc] at hp
        rcases List.mem_cons.1 hp with hp | hp
        · simp [hp]
        · exact ih p (h ▸ hp)
      · simp only [if_neg hc] at hp
        rcases List.mem_cons.1 hp with hp | hp
        · subst hp
          intro hmem
          rcases List.mem_cons.1 hmem with e | e
          · exact hc e.symm
          · exact ih q (h ▸ List.mem_cons_self q qs) e
        · exact ih p (h ▸ List.mem_cons.2 (Or.inr hp))

/-! ## Lemmas about the CJK regex parsers -/

lemma takeDigits_digits : ∀ (n : Nat) (s ds r : List Char),
    takeDigits n s = some (ds, r) → ∀ c ∈ ds, c.isDigit = true := by
  intro n
  induction n with
  | zero =>
    intro s ds r h c hc
    rw [takeDigits] at h
    injection h with h
    rw [Prod.mk.injEq] at h
    obtain ⟨h1, -⟩ := h
    subst h1
    cases hc
  | succ n ih =>
    intro s ds r h c hc
    cases s with
    | nil => cases h
    | cons a s =>
      rw [takeDigits] at h
      by_cases ha : a.isDigit = true
      · rw [if_pos ha] at h
        rcases ht : takeDigits n s with _ | ⟨ds', r'⟩ <;> rw [ht] at h
        · cases h
        · injection h with h
          rw [Prod.mk.injEq] at h
          obtain ⟨h1, -⟩ := h
          subst h1
          rcases List.mem_cons.1 hc with rfl | hc'
          · exact ha
          · exact ih s ds' r' ht c hc'
      · rw [if_neg ha] at h
        cases h

lemma takeDigits_exact : ∀ (y t : List Char), (∀ c ∈ y, c.isDigit = true) →
    takeDigits y.length (y ++ t) = some (y, t) := by
  intro y
  induction y with
  | nil => intro t _; rfl
  | cons c y ih =>
    intro t hd
    have hc : c.isDigit = true := hd c (List.mem_cons_self c y)
    have hy : ∀ a ∈ y, a.isDigit = true := fun a ha => hd a (List.mem_cons.2 (Or.inr ha))
    simp [takeDigits, hc, ih t hy]

lemma takeDigits_barrier : ∀ (n : Nat) (y t : List Char),
    takeDigits n (y ++ '/' :: t) =
      (takeDigits n y).map (fun p => (p.1, p.2 ++ '/' :: t)) := by
  intro n
  induction n with
  | zero => intro y t; rfl
  | succ n ih =>
    intro y t
    cases y with
    | nil =>
      simp [takeDigits, show (('/' : Char).isDigit) = false from by decide]
    | cons c y =>
      by_cases hc : c.isDigit = true
      · rcases h : takeDigits n y with _ | ⟨ds, r⟩ <;>
          simp [takeDigits, hc, ih y t, h]
      · simp [takeDigits, hc]

lemma expectChar_barrier {c : Char} (hc : c ≠ '/') (y t : List Char) :
    expectChar c (y ++ '/' :: t) = (expectChar c y).map (fun r => r ++ '/' :: t) := by
  cases y with
  | nil => simp [expectChar, Ne.symm hc]
  | cons x y =>
    by_cases hx : x = c
    · simp [expectChar, hx]
    · simp [expectChar, hx]

lemma takeOneTwo_one {marker c : Char} (hc : c.isDigit = true) (hm : marker.isDigit = false)
    (t : List Char) : takeOneTwoDigitsThen marker (c :: marker :: t) = some ([c], t) := by
  cases t with
  | nil => simp [takeOneTwoDigitsThen, hc]
  | cons x r => simp [takeOneTwoDigitsThen, hc, hm]

lemma takeOneTwo_two {marker c₁ c₂ : Char} (h₁ : c₁.isDigit = true) (h₂ : c₂.isDigit = true)
    (t : List Char) :
    takeOneTwoDigitsThen marker (c₁ :: c₂ :: marker :: t) = some ([c₁, c₂], t) := by
  simp [takeOneTwoDigitsThen, h₁, h₂]

lemma takeOneTwo_digits : ∀ {marker : Char} (s ds r : List Char),
    takeOneTwoDigitsThen marker s = some (ds, r) → ∀ c ∈ ds, c.isDigit = true := by
  intro marker s ds r h c hc
  rcases s with _ | ⟨c1, _ | ⟨c2, _ | ⟨c3, rest⟩⟩⟩
  · cases h
  · cases h
  · rw [takeOneTwoDigitsThen] at h
    split at h
    · rename_i hcond
      injection h with h
      rw [Prod.mk.injEq] at h
      obtain ⟨h1, -⟩ := h
      subst h1
      rcases List.mem_cons.1 hc with rfl | hc'
      · exact hcond.1
      · cases hc'
    · cases h
  · rw [takeOneTwoDigitsThen] at h
    split at h
    · rename_i hcond
      injection h with h
      rw [Prod.mk.injEq] at h
      obtain ⟨h1, -⟩ := h
      subst h1
      rcases List.mem_cons.1 hc with rfl | hc'
      · exact hcond.1
      · rcases List.mem_cons.1 hc' with rfl | hc''
        · exact hcond.2.1
        · cases hc''
    · split at h
      · rename_i hcond
        injection h with h
        rw [Prod.mk.injEq] at h
        obtain ⟨h1, -⟩ := h
        subst h1
        rcases List.mem_cons.1 hc with rfl | hc'
        · exact hcond.1
        · cases hc'
      · cases h

lemma takeOneTwo_barrier {marker : Char} (hmd : marker.isDigit = false) (hms : marker ≠ '/') :
    ∀ (y t : List Char),
    takeOneTwoDigitsThen marker (y ++ '/' :: t) =
      (takeOneTwoDigitsThen marker y).map (fun p => (p.1, p.2 ++ '/' :: t)) := by
  have hsd : ('/' : Char).isDigit = false := by decide
  have hsm : ('/' : Char) ≠ marker := Ne.symm hms
  intro y t
  rcases y with _ | ⟨c1, _ | ⟨c2, y'⟩⟩
  · rcases t with _ | ⟨x, _ | ⟨x', r⟩⟩ <;> simp [takeOneTwoDigitsThen, hsd, hsm]
  · rcases t with _ | ⟨x, r⟩ <;> simp [takeOneTwoDigitsThen, hsd, hsm]
  · rcases y' with _ | ⟨c3, y''⟩
    · by_cases h2 : c1.isDigit = true ∧ c2 = marker
      · simp [takeOneTwoDigitsThen, hsm, hmd, h2.1, h2.2]
      · simp only [List.cons_append, List.nil_append, takeOneTwoDigitsThen]
        rw [if_neg (by rintro ⟨-, -, e⟩; exact hsm e), if_neg h2, if_neg h2]
        rfl
    · by_cases h3 : c1.isDigit = true ∧ c2.isDigit = true ∧ c3 = marker
      · simp only [List.cons_append, takeOneTwoDigitsThen]
        rw [if_pos h3, if_pos h3]
        rfl
      · by_cases h2 : c1.isDigit = true ∧ c2 = marker
        · simp only [List.cons_append, takeOneTwoDigitsThen]
          rw [if_neg h3, if_neg h3, if_pos h2, if_pos h2]
          rfl
        · simp only [List.cons_append, takeOneTwoDigitsThen]
          rw [if_neg h3, if_neg h3, if_neg h2, if_neg h2]
          rfl

lemma matchCJKDate_barrier (y t : List Char) :
    matchCJKDate (y ++ '/' :: t) = matchCJKDate y := by
  rw [matchCJKDate, matchCJKDate, takeDigits_barrier 4 y t]
  rcases takeDigits 4 y with _ | ⟨yd, r⟩
  · rfl
  · simp only [Option.map_some', Option.some_bind]
    rw [expectChar_barrier (by decide) r t]
    rcases expectChar '年' r with _ | s2
    · rfl
    · simp only [Option.map_some', Option.some_bind]
      rw [takeOneTwo_barrier (by decide) (by decide) s2 t]
      rcases takeOneTwoDigitsThen '月' s2 with _ | ⟨mo, s3⟩
      · rfl
      · simp only [Option.map_some', Option.some_bind]
        rw [takeOneTwo_barrier (by decide) (by decide) s3 t]
        rcases takeOneTwoDigitsThen '日' s3 with _ | ⟨da, s4⟩ <;> rfl

lemma matchCJKDate_year_digits {s y : List Char} {m d : Nat}
    (h : matchCJKDate s = some (y, m, d)) : ∀ c ∈ y, c.isDigit = true := by
  rw [matchCJKDate] at h
  rcases h4 : takeDigits 4 s with _ | ⟨yd, r⟩ <;> rw [h4] at h
  · cases h
  · simp only [Option.some_bind] at h
    rcases he : expectChar '年' r with _ | s2 <;> rw [he] at h
    · cases h
    · simp only [Option.some_bind] at h
      rcases hmo : takeOneTwoDigitsThen '月' s2 with _ | ⟨mo, s3⟩ <;> rw [hmo] at h
      · cases h
      · simp only [Option.some_bind] at h
        rcases hda : takeOneTwoDigitsThen '日' s3 with _ | ⟨da, s4⟩ <;> rw [hda] at h
        · cases h
        · simp only [Option.map_some'] at h
          injection h with h
          rw [Prod.mk.injEq] at h
          obtain ⟨h1, -⟩ := h
          exact h1 ▸ takeDigits_digits 4 s yd r h4

/-! ## Fixed points of the date normalizer -/

lemma marker_not_mem_natDigits {mk : Char} (hmk : mk.isDigit = false) (n : Nat) :
    mk ∉ natDigits n := by
  intro h
  have hd := natDigits_all_digit n mk h
  rw [hd] at hmk
  cases hmk

lemma splitSlash_canonical {y : List Char} (h : '/' ∉ y) (m d : Nat) :
    splitSlash (y ++ '/' :: natDigits m ++ '/' :: natDigits d) =
      [y, natDigits m, natDigits d] := by
  rw [List.append_assoc, List.cons_append, splitSlash_append h,
    splitSlash_append (slash_not_mem_natDigits m),
    splitSlash_no_sep (slash_not_mem_natDigits d)]

lemma slashOrKeep_canonical {y : List Char} (h : '/' ∉ y) (m d : Nat) :
    slashOrKeep (y ++ '/' :: natDigits m ++ '/' :: natDigits d) =
      y ++ '/' :: natDigits m ++ '/' :: natDigits d := by
  simp only [slashOrKeep, splitSlash_canonical h, pyInt_natDigits]

lemma marker_mem_canonical {mk : Char} (hd : mk.isDigit = false) (hs : mk ≠ '/')
    {y : List Char} (m d : Nat) :
    mk ∈ y ++ '/' :: natDigits m ++ '/' :: natDigits d ↔ mk ∈ y := by
  simp [List.mem_append, List.mem_cons, hs, marker_not_mem_natDigits hd m,
    marker_not_mem_natDigits hd d]

lemma normalize_canonical_fixed {y : List Char} (hslash : '/' ∉ y)
    (hnone : ('年' ∈ y ∧ '月' ∈ y ∧ '日' ∈ y) → matchCJKDate y = none) (m d : Nat) :
    normalize_date_format (y ++ '/' :: natDigits m ++ '/' :: natDigits d) =
      y ++ '/' :: natDigits m ++ '/' :: natDigits d := by
  have hne : (y ++ '/' :: natDigits m ++ '/' :: natDigits d) ≠ [] := by simp
  rw [normalize_date_format, if_neg hne]
  by_cases hall : '年' ∈ (y ++ '/' :: natDigits m ++ '/' :: natDigits d) ∧
      '月' ∈ (y ++ '/' :: natDigits m ++ '/' :: natDigits d) ∧
      '日' ∈ (y ++ '/' :: natDigits m ++ '/' :: natDigits d)
  · have hally : '年' ∈ y ∧ '月' ∈ y ∧ '日' ∈ y :=
      ⟨(marker_mem_canonical (by decide) (by decide) m d).1 hall.1,
       (marker_mem_canonical (by decide) (by decide) m d).1 hall.2.1,
       (marker_mem_canonical (by decide) (by decide) m d).1 hall.2.2⟩
    have hmout : matchCJKDate (y ++ '/' :: natDigits m ++ '/' :: natDigits d) = none := by
      rw [List.append_assoc, List.cons_append, matchCJKDate_barrier]
      exact hnone hally
    rw [if_pos hall, hmout]
    exact slashOrKeep_canonical hslash m d
  · rw [if_neg hall]
    exact slashOrKeep_canonical hslash m d

lemma normalize_of_keep {s : List Char} (hkeep : slashOrKeep s = s)
    (h : ¬('年' ∈ s ∧ '月' ∈ s ∧ '日' ∈ s) ∨ matchCJKDate s = none) :
    normalize_date_format (slashOrKeep s) = slashOrKeep s := by
  rw [hkeep]
  by_cases hs : s = []
  · subst hs; rfl
  rw [normalize_date_format, if_neg hs]
  rcases h with h | h
  · rw [if_neg h]
    exact hkeep
  · by_cases hall : '年' ∈ s ∧ '月' ∈ s ∧ '日' ∈ s
    · rw [if_pos hall, h]
      exact hkeep
    · rw [if_neg hall]
      exact hkeep

lemma slashOrKeep_fixed (s : List Char)
    (h : ¬('年' ∈ s ∧ '月' ∈ s ∧ '日' ∈ s) ∨ matchCJKDate s = none) :
    normalize_date_format (slashOrKeep s) = slashOrKeep s := by
  rcases hsp : splitSlash s with _ | ⟨y, _ | ⟨mo, _ | ⟨da, _ | ⟨e, rest⟩⟩⟩⟩
  · exact absurd hsp (splitSlash_ne_nil s)
  · exact normalize_of_keep (by rw [slashOrKeep, hsp]) h
  · exact normalize_of_keep (by rw [slashOrKeep, hsp]) h
  · rcases hmo : pyInt mo with _ | m
    · exact normalize_of_keep (by rw [slashOrKeep, hsp]; simp [hmo]) h
    · rcases hda : pyInt da with _ | d
      · exact normalize_of_keep (by rw [slashOrKeep, hsp]; simp [hmo, hda]) h
      · have hkeq : slashOrKeep s = y ++ '/' :: natDigits m ++ '/' :: natDigits d := by
          rw [slashOrKeep, hsp]
          simp [hmo, hda]
        have hy : '/' ∉ y :=
          splitSlash_parts_no_sep s y (by rw [hsp]; exact List.mem_cons_self y _)
        have hs_eq : y ++ '/' :: (mo ++ '/' :: da) = s := by
          have hj := joinSlash_splitSlash s
          rw [hsp] at hj
          simpa [joinSlash] using hj
        rw [hkeq]
        refine normalize_canonical_fixed hy ?_ m d
        intro hally
        have hall : '年' ∈ s ∧ '月' ∈ s ∧ '日' ∈ s := by
          refine ⟨?_, ?_, ?_⟩ <;> rw [← hs_eq]
          · exact List.mem_append.2 (Or.inl hally.1)
          · exact List.mem_append.2 (Or.inl hally.2.1)
          · exact List.mem_append.2 (Or.inl hally.2.2)
        rcases h with h | h
        · exact absurd hall h
        · rw [← matchCJKDate_barrier y (mo ++ '/' :: da), hs_eq]
          exact h
  · exact normalize_of_keep (by rw [slashOrKeep, hsp]) h

/-- Claim C4: date normalization is idempotent — for every string x,
normalize_date_format (normalize_date_format x) equals
normalize_date_format x. -/
theorem c4_normalize_idempotent (s : List Char) :
    normalize_date_format (normalize_date_format s) = normalize_date_format s := by
  by_cases hs : s = []
  · subst hs; rfl
  by_cases hall : '年' ∈ s ∧ '月' ∈ s ∧ '日' ∈ s
  · rcases hmt : matchCJKDate s with _ | ⟨y, m, d⟩
    · have hns : normalize_date_format s = slashOrKeep s := by
        rw [normalize_date_format, if_neg hs, if_pos hall, hmt]
      rw [hns]
      exact slashOrKeep_fixed s (Or.inr hmt)
    · have hns : normalize_date_format s = y ++ '/' :: natDigits m ++ '/' :: natDigits d := by
        rw [normalize_date_format, if_neg hs, if_pos hall, hmt]
      rw [hns]
      have hyd := matchCJKDate_year_digits hmt
      refine normalize_canonical_fixed ?_ ?_ m d
      · intro hmem
        exact (isDigit_ne (hyd '/' hmem)).1 rfl
      · intro hally
        exact absurd (hyd '年' hally.1) (by decide)
  · have hns : normalize_date_format s = slashOrKeep s := by
      rw [normalize_date_format, if_neg hs, if_neg hall]
    rw [hns]
    exact slashOrKeep_fixed s (Or.inl hall)

lemma slashOrKeep_of_not_recognized {s : List Char} (h : recognizedSlash s = false) :
    slashOrKeep s = s := by
  rw [slashOrKeep]
  rcases hsp : splitSlash s with _ | ⟨y, _ | ⟨mo, _ | ⟨da, _ | ⟨e, rest⟩⟩⟩⟩ <;> try rfl
  rcases hmo : pyInt mo with _ | m
  · simp [hmo]
  · rcases hda : pyInt da with _ | d
    · simp [hmo, hda]
    · exfalso
      rw [recognizedSlash, hsp] at h
      simp [hmo, hda] at h

/-- Claim C5: normalize_date_format maps the two recognized formats to
the canonical unpadded form and passes everything else through
unchanged without ever throwing: the CJK form "2004年5月31日" becomes
"2004/5/31", the padded "2004/05/31" becomes "2004/5/31", the empty
string maps to itself, and any string recognized by neither pattern is
returned unchanged. -/
theorem c5_normalize_recognized_formats :
    normalize_date_format "2004年5月31日".toList = "2004/5/31".toList ∧
    normalize_date_format "2004/05/31".toList = "2004/5/31".toList ∧
    normalize_date_format "".toList = "".toList ∧
    (∀ s : List Char, recognizedCJK s = false → recognizedSlash s = false →
      normalize_date_format s = s) := by
  refine ⟨by decide, by decide, by decide, ?_⟩
  intro s hcjk hslash
  by_cases hs : s = []
  · subst hs; rfl
  rw [normalize_date_format, if_neg hs]
  by_cases hall : '年' ∈ s ∧ '月' ∈ s ∧ '日' ∈ s
  · rcases hmt : matchCJKDate s with _ | v
    · rw [if_pos hall]
      exact slashOrKeep_of_not_recognized hslash
    · exfalso
      rw [recognizedCJK] at hcjk
      simp [hmt, List.contains, hall.1, hall.2.1, hall.2.2] at hcjk
  · rw [if_neg hall]
    exact slashOrKeep_of_not_recognized hslash

/-- Witness for C5: the unrecognized string "garbage" passes through
unchanged. -/
theorem c5_witness : normalize_date_format "garbage".toList = "garbage".toList :=
  c5_normalize_recognized_formats.2.2.2 "garbage".toList (by decide) (by decide)

/-- Claim C8 (implicit): because the CJK branch uses anchored prefix
matching, any string beginning with a valid "YYYY年M月D日" date followed
by additional characters normalizes to just the converted date, the
trailing text being silently discarded. -/
theorem c8_cjk_prefix_discards_trailing (y mdigits ddigits rest : List Char)
    (hy4 : y.length = 4) (hyd : ∀ c ∈ y, c.isDigit = true)
    (hm : mdigits.length = 1 ∨ mdigits.length = 2) (hmd : ∀ c ∈ mdigits, c.isDigit = true)
    (hd : ddigits.length = 1 ∨ ddigits.length = 2) (hdd : ∀ c ∈ ddigits, c.isDigit = true) :
    normalize_date_format (y ++ '年' :: (mdigits ++ '月' :: (ddigits ++ '日' :: rest))) =
      y ++ '/' :: natDigits (digitsToNat mdigits) ++ '/' :: natDigits (digitsToNat ddigits) := by
  have hmark : ('月' : Char).isDigit = false := by decide
  have hdark : ('日' : Char).isDigit = false := by decide
  have hmt : matchCJKDate (y ++ '年' :: (mdigits ++ '月' :: (ddigits ++ '日' :: rest))) =
      some (y, digitsToNat mdigits, digitsToNat ddigits) := by
    have h4 := takeDigits_exact y ('年' :: (mdigits ++ '月' :: (ddigits ++ '日' :: rest))) hyd
    rw [hy4] at h4
    rw [matchCJKDate, h4]
    simp only [Option.some_bind]
    rw [show expectChar '年' ('年' :: (mdigits ++ '月' :: (ddigits ++ '日' :: rest))) =
        some (mdigits ++ '月' :: (ddigits ++ '日' :: rest)) from by simp [expectChar]]
    simp only [Option.some_bind]
    have hmeq : takeOneTwoDigitsThen '月' (mdigits ++ '月' :: (ddigits ++ '日' :: rest)) =
        some (mdigits, ddigits ++ '日' :: rest) := by
      rcases mdigits with _ | ⟨c1, _ | ⟨c2, mrest⟩⟩
      · rcases hm with h | h <;> simp at h
      · exact takeOneTwo_one (hmd c1 (by simp)) hmark _
      · have hr : mrest = [] := by
          rcases hm with h | h
          · simp at h
          · have : mrest.length = 0 := by simpa using h
            exact List.length_eq_zero.mp this
        subst hr
        exact takeOneTwo_two (hmd c1 (by simp)) (hmd c2 (by simp)) _
    rw [hmeq]
    simp only [Option.some_bind]
    have hdeq : takeOneTwoDigitsThen '日' (ddigits ++ '日' :: rest) = some (ddigits, rest) := by
      rcases ddigits with _ | ⟨c1, _ | ⟨c2, drest⟩⟩
      · rcases hd with h | h <;> simp at h
      · exact takeOneTwo_one (hdd c1 (by simp)) hdark _
      · have hr : drest = [] := by
          rcases hd with h | h
          · simp at h
          · have : drest.length = 0 := by simpa using h
            exact List.length_eq_zero.mp this
        subst hr
        exact takeOneTwo_two (hdd c1 (by simp)) (hdd c2 (by simp)) _
    rw [hdeq]
    rfl
  rw [normalize_date_format, if_neg (by simp), if_pos ⟨by simp, by simp, by simp⟩, hmt]

/-- Witness for C8: a date with a trailing annotation character loses
the annotation. -/
theorem c8_witness :
    normalize_date_format "2004年5月31日X".toList = "2004/5/31".toList :=
  c8_cjk_prefix_discards_trailing "2004".toList "5".toList "31".toList "X".toList
    (by decide) (by decide) (by decide) (by decide) (by decide) (by decide)

/-- Claim C9 (implicit): in the slash branch the year component is
copied verbatim with no validation or zero-stripping; only month and
day are parsed as integers, so a non-canonical year part survives into
the output. -/
theorem c9_year_copied_verbatim (y mo da : List Char) (m d : Nat)
    (hy : '/' ∉ y) (hyn : '年' ∉ y)
    (hmo : pyInt mo = some m) (hda : pyInt da = some d) :
    normalize_date_format (y ++ '/' :: (mo ++ '/' :: da)) =
      y ++ '/' :: natDigits m ++ '/' :: natDigits d := by
  have hne : (y ++ '/' :: (mo ++ '/' :: da)) ≠ [] := by simp
  have hmodig := (pyInt_some hmo).2.1
  have hdadig := (pyInt_some hda).2.1
  have hmem : '年' ∉ (y ++ '/' :: (mo ++ '/' :: da)) := by
    intro hq
    rcases List.mem_append.1 hq with h | h
    · exact hyn h
    · rcases List.mem_cons.1 h with h | h
      · exact absurd h (by decide)
      · rcases List.mem_append.1 h with h | h
        · exact absurd (hmodig _ h) (by decide)
        · rcases List.mem_cons.1 h with h | h
          · exact absurd h (by decide)
          · exact absurd (hdadig _ h) (by decide)
  rw [normalize_date_format, if_neg hne, if_neg (fun hq => hmem hq.1)]
  rw [slashOrKeep, splitSlash_append hy,
    splitSlash_append (fun hh => absurd (hmodig '/' hh) (by decide)),
    splitSlash_no_sep (fun hh => absurd (hdadig '/' hh) (by decide))]
  simp [hmo, hda]

/-- Witness for C9: "04/05/31" normalizes to "04/5/31", keeping the
two-digit year verbatim. -/
theorem c9_witness : normalize_date_format "04/05/31".toList = "04/5/31".toList :=
  c9_year_copied_verbatim "04".toList "05".toList "31".toList 5 31
    (by decide) (by decide) (by decide) (by decide)

/-! ## Lemmas about the matching scan -/

lemma scanMembers_skip {p nid : List Char} {xs : List Member}
    (h : ∀ x ∈ xs, ¬ similarity p x.name > simThreshold) :
    scanMembers p nid xs = none := by
  induction xs with
  | nil => rfl
  | cons x xs ih =>
    have hx : ¬ similarity p x.name > simThreshold := h x (List.mem_cons_self x xs)
    rw [scanMembers]
    simp only [if_neg (fun hq : _ ∧ _ => hx hq.1), if_neg hx]
    exact ih (fun a ha => h a (List.mem_cons.2 (Or.inr ha)))

lemma scanMembers_append_none {p nid : List Char} {xs : List Member} (ys : List Member)
    (h : scanMembers p nid xs = none) :
    scanMembers p nid (xs ++ ys) = scanMembers p nid ys := by
  induction xs with
  | nil => rfl
  | cons x xs ih =>
    rw [scanMembers] at h
    by_cases h1 : similarity p x.name > simThreshold ∧ nid = normalize_date_format x.birth_date
    · rw [if_pos h1] at h; cases h
    · rw [if_neg h1] at h
      by_cases h2 : similarity p x.name > simThreshold
      · rw [if_pos h2] at h; cases h
      · rw [if_neg h2] at h
        rw [List.cons_append, scanMembers, if_neg h1, if_neg h2]
        exact ih h

lemma scanMembers_append_some {p nid : List Char} {xs : List Member} (ys : List Member)
    {r : VerifyResult} (h : scanMembers p nid xs = some r) :
    scanMembers p nid (xs ++ ys) = some r := by
  induction xs with
  | nil => cases h
  | cons x xs ih =>
    rw [scanMembers] at h
    rw [List.cons_append, scanMembers]
    by_cases h1 : similarity p x.name > simThreshold ∧ nid = normalize_date_format x.birth_date
    · rw [if_pos h1] at h
      rw [if_pos h1]
      exact h
    · rw [if_neg h1] at h
      rw [if_neg h1]
      by_cases h2 : similarity p x.name > simThreshold
      · rw [if_pos h2] at h
        rw [if_pos h2]
        exact h
      · rw [if_neg h2] at h
        rw [if_neg h2]
        exact ih h

lemma rosterFlat_cons (env : Env) (t : Team) (ts : List Team) :
    rosterFlat env (t :: ts) = (get_team_members env t.url).members ++ rosterFlat env ts := by
  simp [rosterFlat]

lemma scanTeams_eq_none {env : Env} {p nid : List Char} {ts : List Team}
    (h : scanMembers p nid (rosterFlat env ts) = none) :
    scanTeams env p nid ts = VerifyResult.not_found playerNotFoundMsg := by
  induction ts with
  | nil => rfl
  | cons t ts ih =>
    rw [rosterFlat_cons] at h
    have h1 : scanMembers p nid (get_team_members env t.url).members = none := by
      rcases hx : scanMembers p nid (get_team_members env t.url).members with _ | r
      · rfl
      · rw [scanMembers_append_some _ hx] at h; cases h
    rw [scanMembers_append_none _ h1] at h
    rw [scanTeams, h1]
    exact ih h

lemma scanTeams_eq_some {env : Env} {p nid : List Char} {ts : List Team} {r : VerifyResult}
    (h : scanMembers p nid (rosterFlat env ts) = some r) :
    scanTeams env p nid ts = r := by
  induction ts with
  | nil => simp [rosterFlat, scanMembers] at h
  | cons t ts ih =>
    rw [rosterFlat_cons] at h
    rcases hx : scanMembers p nid (get_team_members env t.url).members with _ | r'
    · rw [scanMembers_append_none _ hx] at h
      rw [scanTeams, hx]
      exact ih h
    · rw [scanMembers_append_some _ hx] at h
      injection h with h
      rw [scanTeams, hx]
      exact h

lemma rosterFlat_mem {env : Env} {ts : List Team} {m : Member}
    (h : m ∈ rosterFlat env ts) :
    ∃ t ∈ ts, m ∈ (get_team_members env t.url).members := by
  rw [rosterFlat] at h
  simp only [List.mem_flatten, List.mem_map] at h
  obtain ⟨l, ⟨t, ht, rfl⟩, hm⟩ := h
  exact ⟨t, ht, hm⟩

lemma verify_of_no_teams {env : Env} {p b u : List Char}
    (h : search_teams_by_university env u = []) :
    verify_player_info env p b u = VerifyResult.not_found (teamsNotFoundMsg u) := by
  simp [verify_player_info, h]

lemma scanMembers_mismatch {p nid : List Char} {l : List Member} {m : Member}
    {sim : ℚ} {msg : List Char}
    (h : scanMembers p nid l = some (VerifyResult.name_match_birth_mismatch m sim msg)) :
    m ∈ l ∧ sim = similarity p m.name ∧ msg = mismatchMsgOf m.birth_date := by
  induction l with
  | nil => cases h
  | cons x l ih =>
    rw [scanMembers] at h
    by_cases h1 : similarity p x.name > simThreshold ∧ nid = normalize_date_format x.birth_date
    · rw [if_pos h1] at h
      injection h with h
      cases h
    · rw [if_neg h1] at h
      by_cases h2 : similarity p x.name > simThreshold
      · rw [if_pos h2] at h
        injection h with h
        injection h with e1 e2 e3
        subst e1
        exact ⟨List.mem_cons_self x l, e2.symm, e3.symm⟩
      · rw [if_neg h2] at h
        obtain ⟨hmem, hs, hm⟩ := ih h
        exact ⟨List.mem_cons.2 (Or.inr hmem), hs, hm⟩

/-! ## The claims about `verify_player_info` -/

/-- Counterexample to claim C1 as stated: with a failing roster fetch
(the search interaction fails) and the non-empty affiliation
"東京大学", verify_player_info returns the plain not_found result; it
does not return a LookupFailed-style result distinguishable from
NotFound (its error status is not produced). -/
theorem c1_counterexample :
    envC1.search "東京大学".toList = FetchOutcome.failed ∧
    "東京大学".toList ≠ [] ∧
    verify_player_info envC1 "田中太郎".toList "2004年5月31日".toList "東京大学".toList =
      VerifyResult.not_found (teamsNotFoundMsg "東京大学".toList) ∧
    isLookupFailure
      (verify_player_info envC1 "田中太郎".toList "2004年5月31日".toList "東京大学".toList)
      = false := by
  exact ⟨rfl, by decide, by decide, by decide⟩

/-- Amended claim C1: for every non-empty affiliation, a roster-fetch
failure (not being logged in, or any failure of the search interaction)
makes search_teams_by_university return the empty team list, so
verify_player_info returns the not_found result carrying the no-teams
message — the same outcome as a legitimate zero-team answer, with no
LookupFailed-style result distinguishable from NotFound. -/
theorem c1_fetch_failure_collapses_to_not_found (env : Env) (p b u : List Char)
    (h : env.logged_in = false ∨ env.search u = FetchOutcome.failed) :
    verify_player_info env p b u = VerifyResult.not_found (teamsNotFoundMsg u) := by
  have hs : search_teams_by_university env u = [] := by
    rcases h with h | h
    · rw [search_teams_by_university, if_pos h]
    · by_cases hl : env.logged_in = false
      · rw [search_teams_by_university, if_pos hl]
      · rw [search_teams_by_university, if_neg hl, h]
  exact verify_of_no_teams hs

/-- Witness for the amended claim C1. -/
theorem c1_amended_witness :
    verify_player_info envC1 "田中".toList "2000/1/1".toList "東大".toList =
      VerifyResult.not_found (teamsNotFoundMsg "東大".toList) :=
  c1_fetch_failure_collapses_to_not_found envC1 "田中".toList "2000/1/1".toList
    "東大".toList (Or.inr rfl)

/-- Claim C2: the first roster entry scanned (teams in search order,
members in roster order) whose name similarity to the applicant exceeds
0.8 determines the result and stops the scan: matched if the normalized
birth dates coincide, name_match_birth_mismatch otherwise — regardless
of any later entry. -/
theorem c2_first_qualifying_entry_wins (env : Env) (p b u : List Char)
    (ms₁ : List Member) (m : Member) (ms₂ : List Member)
    (hflat : rosterFlat env (search_teams_by_university env u) = ms₁ ++ m :: ms₂)
    (hbefore : ∀ x ∈ ms₁, ¬ similarity p x.name > simThreshold)
    (hm : similarity p m.name > simThreshold) :
    verify_player_info env p b u =
      (if normalize_date_format b = normalize_date_format m.birth_date
       then VerifyResult.matched m (similarity p m.name)
       else VerifyResult.name_match_birth_mismatch m (similarity p m.name)
         (mismatchMsgOf m.birth_date)) := by
  have hteams : ¬ search_teams_by_university env u = [] := by
    intro h
    rw [h] at hflat
    simp [rosterFlat] at hflat
  simp only [verify_player_info, if_neg hteams]
  have hnone : scanMembers p (normalize_date_format b) ms₁ = none :=
    scanMembers_skip hbefore
  by_cases hb : normalize_date_format b = normalize_date_format m.birth_date
  · rw [if_pos hb]
    refine scanTeams_eq_some ?_
    rw [hflat, scanMembers_append_none _ hnone, scanMembers]
    rw [if_pos ⟨hm, hb⟩]
  · rw [if_neg hb]
    refine scanTeams_eq_some ?_
    rw [hflat, scanMembers_append_none _ hnone, scanMembers]
    rw [if_neg (fun hq : _ ∧ _ => hb hq.2), if_pos hm]

/-- Witness for C2, the example of the spec: with the roster
[(Tanaka Taro, 2004/5/31), (Tanaka Taro, 2000/1/1)] and the applicant
(Tanaka Taro, 2004年5月31日), the first entry wins and the result is
matched on it. -/
theorem c2_witness :
    verify_player_info envC2 "Tanaka Taro".toList "2004年5月31日".toList "Tokyo".toList =
      VerifyResult.matched ⟨"10".toList, "Tanaka Taro".toList, "2004/5/31".toList⟩
        (similarity "Tanaka Taro".toList "Tanaka Taro".toList) := by
  have h := c2_first_qualifying_entry_wins envC2 "Tanaka Taro".toList
    "2004年5月31日".toList "Tokyo".toList
    [] ⟨"10".toList, "Tanaka Taro".toList, "2004/5/31".toList⟩
    [⟨"11".toList, "Tanaka Taro".toList, "2000/1/1".toList⟩]
    (by decide) (by simp) (by decide)
  rw [if_pos (by decide)] at h
  exact h

/-- Claim C3: for every collaborator behaviour and every input,
verify_player_info returns one of the four discriminated result values
(match, name_match_birth_mismatch, not_found, error) — it is a total
function into the result type and never propagates an unhandled
exception. -/
theorem c3_returns_discriminated_result (env : Env) (p b u : List Char) :
    (∃ m sim, verify_player_info env p b u = VerifyResult.matched m sim) ∨
    (∃ m sim msg,
      verify_player_info env p b u = VerifyResult.name_match_birth_mismatch m sim msg) ∨
    (∃ msg, verify_player_info env p b u = VerifyResult.not_found msg) ∨
    (∃ msg, verify_player_info env p b u = VerifyResult.error msg) := by
  rcases h : verify_player_info env p b u with ⟨m, sim⟩ | ⟨m, sim, msg⟩ | ⟨msg⟩ | ⟨msg⟩
  · exact Or.inl ⟨m, sim, rfl⟩
  · exact Or.inr (Or.inl ⟨m, sim, msg, rfl⟩)
  · exact Or.inr (Or.inr (Or.inl ⟨msg, rfl⟩))
  · exact Or.inr (Or.inr (Or.inr ⟨msg, rfl⟩))

/-- Claim C6: if the affiliation yields zero teams, verify_player_info
returns not_found with the no-teams message, regardless of the
applicant's name and birth date. -/
theorem c6_zero_teams_not_found (env : Env) (p b u : List Char)
    (h : search_teams_by_university env u = []) :
    verify_player_info env p b u = VerifyResult.not_found (teamsNotFoundMsg u) :=
  verify_of_no_teams h

/-- Witness for C6. -/
theorem c6_witness :
    verify_player_info envC6 "Tanaka".toList "2000/1/1".toList "X".toList =
      VerifyResult.not_found (teamsNotFoundMsg "X".toList) :=
  c6_zero_teams_not_found envC6 "Tanaka".toList "2000/1/1".toList "X".toList rfl

/-- Claim C7: whenever the result is name_match_birth_mismatch, the
result carries the roster entry itself (whose birth_date is the
original roster string) and its message embeds that original,
non-normalized birth_date; the carried similarity is the one computed
for that entry. -/
theorem c7_mismatch_carries_original_birth_date (env : Env) (p b u : List Char)
    (m : Member) (sim : ℚ) (msg : List Char)
    (h : verify_player_info env p b u = VerifyResult.name_match_birth_mismatch m sim msg) :
    msg = mismatchMsgOf m.birth_date ∧ sim = similarity p m.name ∧
      ∃ t ∈ search_teams_by_university env u, m ∈ (get_team_members env t.url).members := by
  by_cases hteams : search_teams_by_university env u = []
  · rw [verify_of_no_teams hteams] at h
    cases h
  · simp only [verify_player_info, if_neg hteams] at h
    rcases hscan : scanMembers p (normalize_date_format b)
        (rosterFlat env (search_teams_by_university env u)) with _ | r
    · rw [scanTeams_eq_none hscan] at h
      cases h
    · rw [scanTeams_eq_some hscan] at h
      subst h
      obtain ⟨hmem, hs, hm⟩ := scanMembers_mismatch hscan
      exact ⟨hm, hs, rosterFlat_mem hmem⟩

/-- Witness for C7: the mismatch message carries the roster's original
birth-date string "2000/1/1". -/
theorem c7_witness :
    ("名前は一致しますが、生年月日が異なります。JBA登録:".toList ++ "2000/1/1".toList) =
      mismatchMsgOf (⟨"10".toList, "Tanaka".toList, "2000/1/1".toList⟩ : Member).birth_date ∧
    similarity "Tanaka".toList "Tanaka".toList =
      similarity "Tanaka".toList
        (⟨"10".toList, "Tanaka".toList, "2000/1/1".toList⟩ : Member).name ∧
    ∃ t ∈ search_teams_by_university envC7 "T".toList,
      (⟨"10".toList, "Tanaka".toList, "2000/1/1".toList⟩ : Member) ∈
        (get_team_members envC7 t.url).members :=
  c7_mismatch_carries_original_birth_date envC7 "Tanaka".toList "2004/5/31".toList
    "T".toList _ _ _ (by decide)

/-- Claim C10: a failure while fetching one team's roster mid-scan does
not abort or fail the match — that team behaves as an empty roster and
the scan continues with the remaining teams (so when nothing else
qualifies, the final result is the not_found fall-through rather than a
failure value). -/
theorem c10_roster_failure_skips_team (env : Env) (p nid : List Char)
    (l₁ : List Team) (t : Team) (l₂ : List Team)
    (hfail : env.roster t.url = FetchOutcome.failed) :
    scanTeams env p nid (l₁ ++ t :: l₂) = scanTeams env p nid (l₁ ++ l₂) := by
  have hmembers : (get_team_members env t.url).members = [] := by
    rw [get_team_members, hfail]
    rfl
  induction l₁ with
  | nil =>
    rw [List.nil_append, List.nil_append, scanTeams, hmembers]
    rfl
  | cons s l₁ ih =>
    rw [List.cons_append, List.cons_append, scanTeams, scanTeams]
    rcases hx : scanMembers p nid (get_team_members env s.url).members with _ | r
    · exact ih
    · rfl

/-- Witness for C10: with a single team whose roster fetch fails, the
scan skips it and falls through to not_found. -/
theorem c10_witness :
    scanTeams envC10 "Tanaka".toList "2000/1/1".toList
      [⟨"1".toList, "T".toList, "u".toList⟩] =
      VerifyResult.not_found playerNotFoundMsg :=
  (c10_roster_failure_skips_team envC10 "Tanaka".toList "2000/1/1".toList
    [] ⟨"1".toList, "T".toList, "u".toList⟩ [] rfl).trans rfl

/-! ## Soundness of the fuel given to `matchingTotal`

`find_longest_match` always returns a block inside the requested
window; therefore each recursive call of `get_matching_blocks` strictly
shrinks the window span, and the fuel `la + lb` used by `similarity`
reproduces the unbounded recursion of the source exactly. -/

lemma dictBound_nil (alo blo i : Nat) : DictBound alo blo i ([] : List (Nat × Nat)) := by
  intro j v h
  cases h

lemma matchInv_mk {alo ahi blo bhi x y z : Nat} (h1 : alo ≤ x) (h2 : blo ≤ y)
    (h3 : z = 0 → x = alo ∧ y = blo) (h4 : 0 < z → x + z ≤ ahi ∧ y + z ≤ bhi) :
    MatchInv alo ahi blo bhi ⟨x, y, z⟩ :=
  ⟨h1, h2, h3, h4⟩

lemma innerLoop_inv {alo ahi blo bhi i : Nat} {j2len : List (Nat × Nat)}
    (hi : alo ≤ i) (hia : i < ahi) (hd : DictBound alo blo i j2len) :
    ∀ (js : List Nat) (acc : List (Nat × Nat)) (st : MatchState),
      DictBound alo blo (i + 1) acc → MatchInv alo ahi blo bhi st →
      DictBound alo blo (i + 1) (innerLoop i blo bhi j2len js acc st).1 ∧
        MatchInv alo ahi blo bhi (innerLoop i blo bhi j2len js acc st).2 := by
  intro js
  induction js with
  | nil => intro acc st hacc hst; exact ⟨hacc, hst⟩
  | cons j js ih =>
    intro acc st hacc hst
    rw [innerLoop]
    by_cases hjb : j < blo
    · rw [if_pos hjb]
      exact ih acc st hacc hst
    · rw [if_neg hjb]
      by_cases hbj : bhi ≤ j
      · rw [if_pos hbj]
        exact ⟨hacc, hst⟩
      · rw [if_neg hbj]
        set prev := (if j = 0 then 0 else (List.lookup (j - 1) j2len).getD 0) with hpv
        have hprev : prev + alo ≤ i ∧ prev + blo ≤ j := by
          rw [hpv]
          by_cases hj0 : j = 0
          · rw [if_pos hj0]
            omega
          · rw [if_neg hj0]
            rcases hl : List.lookup (j - 1) j2len with _ | v
            · simp
              omega
            · obtain ⟨h1, h2, h3⟩ := hd (j - 1) v hl
              simp
              omega
        obtain ⟨hp1, hp2⟩ := hprev
        apply ih
        · intro j' v' hl
          by_cases hjj : j' = j
          · subst hjj
            simp [List.lookup] at hl
            omega
          · have hbe : (j' == j) = false := beq_eq_false_iff_ne.mpr hjj
            simp [List.lookup, hbe] at hl
            exact hacc j' v' hl
        · by_cases hlt : st.bestsize < prev + 1
          · rw [if_pos hlt]
            exact matchInv_mk (by omega) (by omega) (by omega)
              (fun _ => ⟨by omega, by omega⟩)
          · rw [if_neg hlt]
            exact hst

lemma outerLoop_inv (a b : List Char) {alo ahi blo bhi : Nat} :
    ∀ (n i : Nat) (j2len : List (Nat × Nat)) (st : MatchState),
      alo ≤ i → i + n ≤ ahi → DictBound alo blo i j2len → MatchInv alo ahi blo bhi st →
      MatchInv alo ahi blo bhi (outerLoop a b blo bhi (List.range' i n) j2len st) := by
  intro n
  induction n with
  | zero => intro i j2len st _ _ _ hst; exact hst
  | succ n ih =>
    intro i j2len st hi hn hd hst
    have hia : i < ahi := by omega
    obtain ⟨hd2, hst2⟩ := innerLoop_inv hi hia hd
      (b2jGet b ((a.get? i).getD ' ')) [] st (dictBound_nil alo blo (i + 1)) hst
    show MatchInv alo ahi blo bhi
      (outerLoop a b blo bhi (i :: List.range' (i + 1) n) j2len st)
    rw [outerLoop]
    exact ih (i + 1) _ _ (by omega) (by omega) hd2 hst2

lemma extendBack_inv (a b : List Char) {alo ahi blo bhi : Nat} :
    ∀ (fuel : Nat) (st : MatchState), MatchInv alo ahi blo bhi st →
      MatchInv alo ahi blo bhi (extendBack a b alo blo fuel st) := by
  intro fuel
  induction fuel with
  | zero => intro st hst; exact hst
  | succ fuel ih =>
    intro st hst
    rw [extendBack]
    by_cases hc : alo < st.besti ∧ blo < st.bestj ∧
        charEq a b (st.besti - 1) (st.bestj - 1) = true
    · rw [if_pos hc]
      obtain ⟨hs1, hs2, hs3, hs4⟩ := hst
      obtain ⟨hc1, hc2, -⟩ := hc
      refine ih _ (matchInv_mk (by omega) (by omega) (by omega) ?_)
      intro _
      by_cases hz : st.bestsize = 0
      · obtain ⟨e1, e2⟩ := hs3 hz
        omega
      · obtain ⟨e1, e2⟩ := hs4 (by omega)
        omega
    · rw [if_neg hc]
      exact hst

lemma extendFwd_inv (a b : List Char) {alo ahi blo bhi : Nat} :
    ∀ (fuel : Nat) (st : MatchState), MatchInv alo ahi blo bhi st →
      MatchInv alo ahi blo bhi (extendFwd a b ahi bhi fuel st) := by
  intro fuel
  induction fuel with
  | zero => intro st hst; exact hst
  | succ fuel ih =>
    intro st hst
    rw [extendFwd]
    by_cases hc : st.besti + st.bestsize < ahi ∧ st.bestj + st.bestsize < bhi ∧
        charEq a b (st.besti + st.bestsize) (st.bestj + st.bestsize) = true
    · rw [if_pos hc]
      obtain ⟨hs1, hs2, hs3, hs4⟩ := hst
      obtain ⟨hc1, hc2, -⟩ := hc
      refine ih _ (matchInv_mk hs1 hs2 (by omega) ?_)
      intro _
      omega
    · rw [if_neg hc]
      exact hst

lemma find_longest_match_inv (a b : List Char) (alo ahi blo bhi : Nat) :
    MatchInv alo ahi blo bhi (find_longest_match a b alo ahi blo bhi) := by
  have hst0 : MatchInv alo ahi blo bhi ⟨alo, blo, 0⟩ :=
    matchInv_mk (Nat.le_refl alo) (Nat.le_refl blo) (fun _ => ⟨rfl, rfl⟩)
      (fun h => absurd h (by omega))
  have houter : MatchInv alo ahi blo bhi
      (outerLoop a b blo bhi (List.range' alo (ahi - alo)) [] ⟨alo, blo, 0⟩) := by
    by_cases halo : alo ≤ ahi
    · exact outerLoop_inv a b (ahi - alo) alo [] ⟨alo, blo, 0⟩ (Nat.le_refl alo)
        (by omega) (dictBound_nil alo blo alo) hst0
    · have hz : ahi - alo = 0 := by omega
      rw [hz]
      exact hst0
  rw [find_longest_match]
  exact extendFwd_inv a b _ _ (extendBack_inv a b _ _ houter)

lemma find_longest_match_bounds (a b : List Char) (alo ahi blo bhi : Nat)
    (h : 0 < (find_longest_match a b alo ahi blo bhi).bestsize) :
    alo ≤ (find_longest_match a b alo ahi blo bhi).besti ∧
    (find_longest_match a b alo ahi blo bhi).besti +
      (find_longest_match a b alo ahi blo bhi).bestsize ≤ ahi ∧
    blo ≤ (find_longest_match a b alo ahi blo bhi).bestj ∧
    (find_longest_match a b alo ahi blo bhi).bestj +
      (find_longest_match a b alo ahi blo bhi).bestsize ≤ bhi := by
  obtain ⟨h1, h2, h3, h4⟩ := find_longest_match_inv a b alo ahi blo bhi
  obtain ⟨h5, h6⟩ := h4 h
  exact ⟨h1, h5, h2, h6⟩

lemma matchingTotal_zero_size {a b : List Char} (f alo ahi blo bhi : Nat)
    (h : (find_longest_match a b alo ahi blo bhi).bestsize = 0) :
    matchingTotal a b f alo ahi blo bhi = 0 := by
  cases f with
  | zero => rfl
  | succ f => simp [matchingTotal, h]

lemma matchingTotal_fuel_stable (a b : List Char) :
    ∀ (μ f₁ f₂ alo ahi blo bhi : Nat), (ahi - alo) + (bhi - blo) ≤ μ →
      (ahi - alo) + (bhi - blo) ≤ f₁ → (ahi - alo) + (bhi - blo) ≤ f₂ →
      matchingTotal a b f₁ alo ahi blo bhi = matchingTotal a b f₂ alo ahi blo bhi := by
  intro μ
  induction μ with
  | zero =>
    intro f₁ f₂ alo ahi blo bhi hμ h1 h2
    have hz : (find_longest_match a b alo ahi blo bhi).bestsize = 0 := by
      by_contra hnz
      have hb := find_longest_match_bounds a b alo ahi blo bhi (Nat.pos_of_ne_zero hnz)
      omega
    rw [matchingTotal_zero_size f₁ alo ahi blo bhi hz,
      matchingTotal_zero_size f₂ alo ahi blo bhi hz]
  | succ μ ih =>
    intro f₁ f₂ alo ahi blo bhi hμ h1 h2
    by_cases hz : (find_longest_match a b alo ahi blo bhi).bestsize = 0
    · rw [matchingTotal_zero_size f₁ alo ahi blo bhi hz,
        matchingTotal_zero_size f₂ alo ahi blo bhi hz]
    · obtain ⟨hb1, hb2, hb3, hb4⟩ :=
        find_longest_match_bounds a b alo ahi blo bhi (Nat.pos_of_ne_zero hz)
      have hsz : 0 < (find_longest_match a b alo ahi blo bhi).bestsize :=
        Nat.pos_of_ne_zero hz
      obtain ⟨f₁', rfl⟩ : ∃ g, f₁ = g + 1 := ⟨f₁ - 1, by omega⟩
      obtain ⟨f₂', rfl⟩ : ∃ g, f₂ = g + 1 := ⟨f₂ - 1, by omega⟩
      simp only [matchingTotal]
      rw [if_neg hz, if_neg hz]
      have hL :
          (if alo < (find_longest_match a b alo ahi blo bhi).besti ∧
              blo < (find_longest_match a b alo ahi blo bhi).bestj then
            matchingTotal a b f₁' alo (find_longest_match a b alo ahi blo bhi).besti blo
              (find_longest_match a b alo ahi blo bhi).bestj
          else 0) =
          (if alo < (find_longest_match a b alo ahi blo bhi).besti ∧
              blo < (find_longest_match a b alo ahi blo bhi).bestj then
            matchingTotal a b f₂' alo (find_longest_match a b alo ahi blo bhi).besti blo
              (find_longest_match a b alo ahi blo bhi).bestj
          else 0) := by
        by_cases hc : alo < (find_longest_match a b alo ahi blo bhi).besti ∧
            blo < (find_longest_match a b alo ahi blo bhi).bestj
        · rw [if_pos hc, if_pos hc]
          exact ih f₁' f₂' alo _ blo _ (by omega) (by omega) (by omega)
        · rw [if_neg hc, if_neg hc]
      have hR :
          (if (find_longest_match a b alo ahi blo bhi).besti +
                (find_longest_match a b alo ahi blo bhi).bestsize < ahi ∧
              (find_longest_match a b alo ahi blo bhi).bestj +
                (find_longest_match a b alo ahi blo bhi).bestsize < bhi then
            matchingTotal a b f₁'
              ((find_longest_match a b alo ahi blo bhi).besti +
                (find_longest_match a b alo ahi blo bhi).bestsize) ahi
              ((find_longest_match a b alo ahi blo bhi).bestj +
                (find_longest_match a b alo ahi blo bhi).bestsize) bhi
          else 0) =
          (if (find_longest_match a b alo ahi blo bhi).besti +
                (find_longest_match a b alo ahi blo bhi).bestsize < ahi ∧
              (find_longest_match a b alo ahi blo bhi).bestj +
                (find_longest_match a b alo ahi blo bhi).bestsize < bhi then
            matchingTotal a b f₂'
              ((find_longest_match a b alo ahi blo bhi).besti +
                (find_longest_match a b alo ahi blo bhi).bestsize) ahi
              ((find_longest_match a b alo ahi blo bhi).bestj +
                (find_longest_match a b alo ahi blo bhi).bestsize) bhi
          else 0) := by
        by_cases hc : (find_longest_match a b alo ahi blo bhi).besti +
              (find_longest_match a b alo ahi blo bhi).bestsize < ahi ∧
            (find_longest_match a b alo ahi blo bhi).bestj +
              (find_longest_match a b alo ahi blo bhi).bestsize < bhi
        · rw [if_pos hc, if_pos hc]
          exact ih f₁' f₂' _ ahi _ bhi (by omega) (by omega) (by omega)
        · rw [if_neg hc, if_neg hc]
      rw [hL, hR]

/-- The fuel `la + lb` handed to `matchingTotal` by `similarity` is
sufficient: any fuel at least the combined length gives the same total,
so the fuel-driven recursion coincides with the unbounded queue
recursion of the source's `get_matching_blocks`. -/
theorem matchingTotal_fuel_sufficient (a b : List Char) (f : Nat)
    (hf : a.length + b.length ≤ f) :
    matchingTotal a b f 0 a.length 0 b.length =
      matchingTotal a b (a.length + b.length) 0 a.length 0 b.length :=
  matchingTotal_fuel_stable a b (a.length + b.length) f (a.length + b.length)
    0 a.length 0 b.length (by omega) (by omega) (by omega)
